import Mathlib

/-!
# Verification of the `spo` Spotify CLI core

A shallow embedding of the core of `src/spo/spo.py`: the search-result
model built by `get_search_result_dict` (an insertion-ordered dictionary
from track/artist/album URIs to display fields) and the interactive
picker loop `let_user_scroll`, together with the `search` branch of
`main` that glues them to the playback collaborator.

Terminal rendering (`PrettyListCreator.reprint` / `.moveup`) lives in a
module outside the embedded file; the calls made by `spo.py` are modelled
as an abstract trace of render events.
-/

namespace Spo

/-- The three search kinds handled by `get_search_result_dict`
(`search_type` values `tracks` / `artists` / `albums`). -/
inductive Kind where
  | track
  | artist
  | album
deriving DecidableEq, Repr

/-- One raw result record from the search collaborator, carrying the
fields that `get_search_result_dict` reads: `item['uri']`,
`item['name']`, `item['artists']` (a list, of which only the first
element's name is used) and `item['album']['name']`. -/
structure RawItem where
  uri : String
  name : String
  artists : List String
  album : String
deriving DecidableEq, Repr

/-- The field projection applied to one raw item, per kind:
`[name, artists[0].name, album.name]` for tracks, `[name]` for
artists, `[name, artists[0].name]` for albums.  Indexing
`item['artists'][0]` raises in Python when the list is empty, so the
projection is fallible (`none` models the `IndexError`). -/
def extractFields (kind : Kind) (item : RawItem) : Option (List String) :=
  match kind with
  | .track => item.artists.head?.map (fun a => [item.name, a, item.album])
  | .artist => some [item.name]
  | .album => item.artists.head?.map (fun a => [item.name, a])

/-- The display-field dictionary: an insertion-ordered association list
from URI to display fields, modelling Python's `OrderedDict`. -/
abbrev ResultDict := List (String × List String)

/-- `rtn_dict[key] = value` on an `OrderedDict`: overwrite the value in
place if the key is present (keeping its position), else append. -/
def odInsert : ResultDict → String → List String → ResultDict
  | [], k, v => [(k, v)]
  | (a, b) :: rest, k, v =>
    if a = k then (k, v) :: rest else (a, b) :: odInsert rest k v

/-- The `for item in items` loop body of `get_search_result_dict`,
threading the ordered dictionary; `none` models the `IndexError`
raised by `item['artists'][0]` on an item with no artists. -/
def buildFold (kind : Kind) : List RawItem → ResultDict → Option ResultDict
  | [], d => some d
  | item :: rest, d =>
    match extractFields kind item with
    | none => none
    | some v => buildFold kind rest (odInsert d item.uri v)

/-- `get_search_result_dict` (spo.py lines 51–64), with the remote call
abstracted to its returned list of items.  `Except.error` models an
uncaught Python exception; `.ok none` is the `return None` taken when
the item list is empty; `.ok (some d)` is the returned `OrderedDict`. -/
def get_search_result_dict (kind : Kind) (items : List RawItem) :
    Except Unit (Option ResultDict) :=
  if items.isEmpty then .ok none
  else
    match buildFold kind items [] with
    | none => .error ()
    | some d => .ok (some d)

/-- Number of display fields each kind projects to. -/
def kindArity : Kind → Nat
  | .track => 3
  | .artist => 1
  | .album => 2

/-! ## Basic lemmas about the ordered dictionary -/

theorem extractFields_length {kind : Kind} {item : RawItem} {v : List String}
    (h : extractFields kind item = some v) : v.length = kindArity kind := by
  cases kind with
  | track =>
    simp only [extractFields] at h
    obtain ⟨a, ha, rfl⟩ := Option.map_eq_some'.mp h
    rfl
  | artist =>
    simp only [extractFields] at h
    injection h with h
    subst h; rfl
  | album =>
    simp only [extractFields] at h
    obtain ⟨a, ha, rfl⟩ := Option.map_eq_some'.mp h
    rfl

/-- Key evolution of one `OrderedDict` assignment: the key order gains
`k` at the end exactly when `k` is new. -/
def keysInsert (ks : List String) (k : String) : List String :=
  if k ∈ ks then ks else ks ++ [k]

theorem odInsert_keys (d : ResultDict) (k : String) (v : List String) :
    (odInsert d k v).map Prod.fst = keysInsert (d.map Prod.fst) k := by
  induction d with
  | nil => simp [odInsert, keysInsert]
  | cons p rest ih =>
    obtain ⟨a, b⟩ := p
    by_cases hak : a = k
    · subst hak
      simp [odInsert, keysInsert]
    · simp only [odInsert, if_neg hak, List.map_cons, keysInsert, ih]
      have hka : ¬ k = a := fun h => hak h.symm
      by_cases hk : k ∈ rest.map Prod.fst
      · simp [keysInsert, hk, hka]
      · simp [keysInsert, hk, hka]

theorem odInsert_mem {d : ResultDict} {k : String} {v : List String}
    {p : String × List String} (h : p ∈ odInsert d k v) :
    p ∈ d ∨ p = (k, v) := by
  induction d with
  | nil =>
    right
    simpa [odInsert] using h
  | cons q rest ih =>
    obtain ⟨a, b⟩ := q
    by_cases hak : a = k
    · subst hak
      simp only [odInsert, if_true, eq_self_iff_true, List.mem_cons] at h
      rcases h with h | h
      · exact Or.inr h
      · exact Or.inl (List.mem_cons_of_mem _ h)
    · simp only [odInsert, if_neg hak, List.mem_cons] at h
      rcases h with h | h
      · exact Or.inl (by simp [h])
      · rcases ih h with h' | h'
        · exact Or.inl (List.mem_cons_of_mem _ h')
        · exact Or.inr h'

theorem odInsert_fresh (d : ResultDict) (k : String) (v : List String)
    (h : k ∉ d.map Prod.fst) : odInsert d k v = d ++ [(k, v)] := by
  induction d with
  | nil => simp [odInsert]
  | cons p rest ih =>
    obtain ⟨a, b⟩ := p
    simp only [List.map_cons, List.mem_cons] at h
    push_neg at h
    have hak : ¬ a = k := fun hh => h.1 hh.symm
    simp [odInsert, hak, ih h.2]

/-! ## The interactive picker loop (`let_user_scroll`, spo.py lines 66–85) -/

/-- A terminal-output action issued by `let_user_scroll` through its
`PrettyListCreator`: `reprint i` is `reprint(pretty_list(i))` (full
repaint with entry `i` highlighted), `reprintBlank` is `reprint('')`,
and `moveup n` is `moveup(n)`. -/
inductive RenderEvent where
  | reprint (highlighted : Nat)
  | reprintBlank
  | moveup (lines : Nat)
deriving DecidableEq, Repr

/-- How one call of `let_user_scroll` ends: `cancelled` is `return None`,
`selected u` is `return list(results_array.keys())[index]`, and
`crashed` is the `IndexError` that indexing would raise were `index`
ever out of range. -/
inductive ScrollOutcome where
  | cancelled
  | selected (uri : String)
  | crashed
deriving DecidableEq, Repr

/-- Result of running the picker loop on a finite keystroke list:
either the loop returned, or it consumed all input and is blocked
reading the next character while highlighting entry `index`. -/
inductive RunResult where
  | outOfInput (index : Nat)
  | finished (outcome : ScrollOutcome)
deriving DecidableEq, Repr

/-- Effect of one iteration of the `while(True)` body: either the loop
continues with a new cursor position, or it returns. -/
inductive StepResult where
  | cont (index : Nat) (events : List RenderEvent)
  | halt (outcome : ScrollOutcome) (events : List RenderEvent)
deriving DecidableEq, Repr

/-- One iteration of the `while(True)` body of `let_user_scroll` on the
character `getch()` returned.  Mirrors the dispatch order of the
source: `'q'`/escape, then `'j'` guarded by `index <
results_array_length - 1`, then `'k'` guarded by `index > 0`, then
carriage return, then the silent fall-through for any other key. -/
def scrollStep (results_array : ResultDict) (results_len : Nat)
    (index : Nat) (c : Char) : StepResult :=
  if c = 'q' ∨ c = '\x1B' then
    .halt .cancelled []
  else if c = 'j' ∧ index < results_array.length - 1 then
    .cont (index + 1) [.reprint (index + 1)]
  else if c = 'k' ∧ 0 < index then
    .cont (index - 1) [.reprint (index - 1)]
  else if c = '\x0D' then
    match (results_array.map Prod.fst).get? index with
    | some u =>
      .halt (.selected u) [.reprintBlank, .moveup (results_len + 10)]
    | none =>
      .halt .crashed [.reprintBlank, .moveup (results_len + 10)]
  else
    .cont index []

/-- The `while(True)` loop of `let_user_scroll`, iterated over a finite
list of input characters, threading the cursor `index` and collecting
the render events it emits. -/
def scrollLoop (results_array : ResultDict) (results_len : Nat) :
    Nat → List Char → RunResult × List RenderEvent
  | index, [] => (.outOfInput index, [])
  | index, c :: cs =>
    match scrollStep results_array results_len index c with
    | .halt o es => (.finished o, es)
    | .cont index' es =>
      let r := scrollLoop results_array results_len index' cs
      (r.1, es ++ r.2)

/-- `let_user_scroll(results_array, results_len)` run against a finite
keystroke list: the initial `reprint(pretty_list(0))`, then the loop
from cursor `0`. -/
def let_user_scroll (results_array : ResultDict) (results_len : Nat)
    (input : List Char) : RunResult × List RenderEvent :=
  let r := scrollLoop results_array results_len 0 input
  (r.1, .reprint 0 :: r.2)

/-! ## The `search` branch of `main` (spo.py lines 133–143) -/

/-- Externally visible effect of the `search` branch of `main` past the
picker's own rendering. -/
inductive Effect where
  | openUri (uri : String)
  | printNoResults
deriving DecidableEq, Repr

/-- Outcome of the `search` branch: `completed m effs` records the model
the picker was invoked with (`none` when the picker was skipped) and
the effects issued; `blocked` means the picker exhausted the supplied
input without returning; `crashed` models an uncaught exception. -/
inductive MainOutcome where
  | completed (pickerModel : Option ResultDict) (effects : List Effect)
  | blocked
  | crashed
deriving DecidableEq, Repr

/-- The model `main` hands to `let_user_scroll`, if any: the built
dictionary when `if results_array:` finds it truthy (non-`None` and
non-empty), `none` otherwise. -/
def picker_called (items : List RawItem) : Option ResultDict :=
  match get_search_result_dict Kind.track items with
  | .ok (some d) => if d.isEmpty then none else some d
  | _ => none

/-- The `elif args['search']` branch of `main`: build the result
dictionary for kind `tracks`, print the no-results message when it is
falsy, otherwise run the picker with `results_len = len(results_array)`
and issue `OpenUri` exactly when the returned selection is truthy
(non-`None` and not the empty string). -/
def main_search (items : List RawItem) (input : List Char) : MainOutcome :=
  match get_search_result_dict Kind.track items with
  | .error _ => .crashed
  | .ok none => .completed none [.printNoResults]
  | .ok (some d) =>
    if d.isEmpty then .completed none [.printNoResults]
    else
      match (let_user_scroll d d.length input).1 with
      | .outOfInput _ => .blocked
      | .finished .cancelled => .completed (some d) []
      | .finished (.selected u) =>
        .completed (some d) (if u = "" then [] else [.openUri u])
      | .finished .crashed => .crashed

/-! ## Step characterization lemmas -/

theorem scrollStep_q (ra : ResultDict) (rl index : Nat) :
    scrollStep ra rl index 'q' = .halt .cancelled [] := by
  unfold scrollStep
  rw [if_pos (Or.inl rfl)]

theorem scrollStep_esc (ra : ResultDict) (rl index : Nat) :
    scrollStep ra rl index '\x1B' = .halt .cancelled [] := by
  unfold scrollStep
  rw [if_pos (Or.inr rfl)]

theorem scrollStep_j (ra : ResultDict) (rl index : Nat) :
    scrollStep ra rl index 'j' =
      if index < ra.length - 1 then .cont (index + 1) [.reprint (index + 1)]
      else .cont index [] := by
  unfold scrollStep
  rw [if_neg (by decide)]
  by_cases h : index < ra.length - 1
  · rw [if_pos ⟨rfl, h⟩, if_pos h]
  · rw [if_neg (fun hc => h hc.2), if_neg (fun hc => by exact absurd hc.1 (by decide)),
      if_neg (by decide), if_neg h]

theorem scrollStep_k (ra : ResultDict) (rl index : Nat) :
    scrollStep ra rl index 'k' =
      if 0 < index then .cont (index - 1) [.reprint (index - 1)]
      else .cont index [] := by
  unfold scrollStep
  rw [if_neg (by decide), if_neg (fun hc => by exact absurd hc.1 (by decide))]
  by_cases h : 0 < index
  · rw [if_pos ⟨rfl, h⟩, if_pos h]
  · rw [if_neg (fun hc => h hc.2), if_neg (by decide), if_neg h]

theorem scrollStep_cr (ra : ResultDict) (rl index : Nat) :
    scrollStep ra rl index '\x0D' =
      match (ra.map Prod.fst).get? index with
      | some u => .halt (.selected u) [.reprintBlank, .moveup (rl + 10)]
      | none => .halt .crashed [.reprintBlank, .moveup (rl + 10)] := by
  unfold scrollStep
  rw [if_neg (by decide), if_neg (fun hc => by exact absurd hc.1 (by decide)),
    if_neg (fun hc => by exact absurd hc.1 (by decide)), if_pos rfl]

theorem scrollStep_other (ra : ResultDict) (rl index : Nat) {c : Char}
    (h1 : c ≠ 'j') (h2 : c ≠ 'k') (h3 : c ≠ '\x0D') (h4 : c ≠ 'q')
    (h5 : c ≠ '\x1B') :
    scrollStep ra rl index c = .cont index [] := by
  unfold scrollStep
  rw [if_neg (fun hc => hc.elim h4 h5), if_neg (fun hc => h1 hc.1),
    if_neg (fun hc => h2 hc.1), if_neg h3]

/-- Terminal characters: the step halts exactly on `'q'`, escape or
carriage return. -/
def isTerminalChar (c : Char) : Prop :=
  c = 'q' ∨ c = '\x1B' ∨ c = '\x0D'

instance (c : Char) : Decidable (isTerminalChar c) := by
  unfold isTerminalChar
  infer_instance

theorem scrollStep_halt_iff (ra : ResultDict) (rl index : Nat) (c : Char) :
    (∃ o es, scrollStep ra rl index c = .halt o es) ↔ isTerminalChar c := by
  constructor
  · rintro ⟨o, es, h⟩
    by_contra hterm
    unfold isTerminalChar at hterm
    push_neg at hterm
    obtain ⟨hq, he, hcr⟩ := hterm
    unfold scrollStep at h
    rw [if_neg (fun hc => hc.elim hq he)] at h
    by_cases hj : c = 'j' ∧ index < ra.length - 1
    · rw [if_pos hj] at h; cases h
    · rw [if_neg hj] at h
      by_cases hk : c = 'k' ∧ 0 < index
      · rw [if_pos hk] at h; cases h
      · rw [if_neg hk, if_neg hcr] at h; cases h
  · rintro (rfl | rfl | rfl)
    · exact ⟨_, _, scrollStep_q ra rl index⟩
    · exact ⟨_, _, scrollStep_esc ra rl index⟩
    · rw [scrollStep_cr]
      rcases (ra.map Prod.fst).get? index with _ | u
      · exact ⟨_, _, rfl⟩
      · exact ⟨_, _, rfl⟩

/-- The cursor index never leaves `[0, len)` across a continuing step. -/
theorem scrollStep_cont_lt {ra : ResultDict} {rl index : Nat} {c : Char}
    {index' : Nat} {es : List RenderEvent}
    (h : scrollStep ra rl index c = .cont index' es)
    (hlt : index < ra.length) : index' < ra.length := by
  unfold scrollStep at h
  by_cases h0 : c = 'q' ∨ c = '\x1B'
  · rw [if_pos h0] at h; cases h
  · rw [if_neg h0] at h
    by_cases hj : c = 'j' ∧ index < ra.length - 1
    · rw [if_pos hj] at h
      cases h
      omega
    · rw [if_neg hj] at h
      by_cases hk : c = 'k' ∧ 0 < index
      · rw [if_pos hk] at h
        cases h
        omega
      · rw [if_neg hk] at h
        by_cases hcr : c = '\x0D'
        · rw [if_pos hcr] at h
          rcases hg : (ra.map Prod.fst).get? index with _ | u <;> rw [hg] at h <;>
            cases h
        · rw [if_neg hcr] at h
          cases h
          exact hlt

/-- Inversion for halting steps: the three `return` sites of the loop
and what each prints. -/
theorem scrollStep_halt_inv {ra : ResultDict} {rl index : Nat} {c : Char}
    {o : ScrollOutcome} {es : List RenderEvent}
    (h : scrollStep ra rl index c = .halt o es) :
    (o = .cancelled ∧ es = []) ∨
    (∃ u, o = .selected u ∧ (ra.map Prod.fst).get? index = some u ∧
      es = [.reprintBlank, .moveup (rl + 10)]) ∨
    (o = .crashed ∧ (ra.map Prod.fst).get? index = none ∧
      es = [.reprintBlank, .moveup (rl + 10)]) := by
  unfold scrollStep at h
  by_cases h0 : c = 'q' ∨ c = '\x1B'
  · rw [if_pos h0] at h
    cases h
    exact Or.inl ⟨rfl, rfl⟩
  · rw [if_neg h0] at h
    by_cases hj : c = 'j' ∧ index < ra.length - 1
    · rw [if_pos hj] at h; cases h
    · rw [if_neg hj] at h
      by_cases hk : c = 'k' ∧ 0 < index
      · rw [if_pos hk] at h; cases h
      · rw [if_neg hk] at h
        by_cases hcr : c = '\x0D'
        · rw [if_pos hcr] at h
          rcases hg : (ra.map Prod.fst).get? index with _ | u <;> rw [hg] at h <;>
            cases h
          · exact Or.inr (Or.inr ⟨rfl, rfl, rfl⟩)
          · exact Or.inr (Or.inl ⟨u, rfl, rfl, rfl⟩)
        · rw [if_neg hcr] at h; cases h

/-- A continuing step emits at most one full repaint and nothing else. -/
theorem scrollStep_cont_events {ra : ResultDict} {rl index : Nat} {c : Char}
    {index' : Nat} {es : List RenderEvent}
    (h : scrollStep ra rl index c = .cont index' es) :
    es = [] ∨ ∃ m, es = [RenderEvent.reprint m] := by
  unfold scrollStep at h
  by_cases h0 : c = 'q' ∨ c = '\x1B'
  · rw [if_pos h0] at h; cases h
  · rw [if_neg h0] at h
    by_cases hj : c = 'j' ∧ index < ra.length - 1
    · rw [if_pos hj] at h
      cases h
      exact Or.inr ⟨_, rfl⟩
    · rw [if_neg hj] at h
      by_cases hk : c = 'k' ∧ 0 < index
      · rw [if_pos hk] at h
        cases h
        exact Or.inr ⟨_, rfl⟩
      · rw [if_neg hk] at h
        by_cases hcr : c = '\x0D'
        · rw [if_pos hcr] at h
          rcases hg : (ra.map Prod.fst).get? index with _ | u <;> rw [hg] at h <;>
            cases h
        · rw [if_neg hcr] at h
          cases h
          exact Or.inl rfl

/-! ## Loop-level lemmas -/

theorem scrollLoop_outOfInput_lt {ra : ResultDict} {rl : Nat} :
    ∀ {input : List Char} {index i' : Nat}, index < ra.length →
      (scrollLoop ra rl index input).1 = .outOfInput i' → i' < ra.length := by
  intro input
  induction input with
  | nil =>
    intro index i' hlt h
    simp only [scrollLoop] at h
    cases h
    exact hlt
  | cons c cs ih =>
    intro index i' hlt h
    simp only [scrollLoop] at h
    rcases hstep : scrollStep ra rl index c with ⟨index', es⟩ | ⟨o, es⟩
    · rw [hstep] at h
      exact ih (scrollStep_cont_lt hstep hlt) h
    · rw [hstep] at h
      cases h

theorem scrollLoop_append_outOfInput {ra : ResultDict} {rl : Nat} :
    ∀ {xs : List Char} {index i' : Nat} (ys : List Char),
      (scrollLoop ra rl index xs).1 = .outOfInput i' →
      scrollLoop ra rl index (xs ++ ys) =
        ((scrollLoop ra rl i' ys).1,
          (scrollLoop ra rl index xs).2 ++ (scrollLoop ra rl i' ys).2) := by
  intro xs
  induction xs with
  | nil =>
    intro index i' ys h
    simp only [scrollLoop] at h
    cases h
    simp [scrollLoop]
  | cons c cs ih =>
    intro index i' ys h
    simp only [scrollLoop] at h ⊢
    rcases hstep : scrollStep ra rl index c with ⟨index', es⟩ | ⟨o, es⟩ <;> rw [hstep] at h
    · show ((scrollLoop ra rl index' (cs ++ ys)).1,
          es ++ (scrollLoop ra rl index' (cs ++ ys)).2) =
        ((scrollLoop ra rl i' ys).1,
          (es ++ (scrollLoop ra rl index' cs).2) ++ (scrollLoop ra rl i' ys).2)
      rw [ih ys h]
      simp [List.append_assoc]
    · cases h

theorem scrollLoop_append_finished {ra : ResultDict} {rl : Nat} :
    ∀ {xs : List Char} {index : Nat} {o : ScrollOutcome} (ys : List Char),
      (scrollLoop ra rl index xs).1 = .finished o →
      scrollLoop ra rl index (xs ++ ys) = scrollLoop ra rl index xs := by
  intro xs
  induction xs with
  | nil =>
    intro index o ys h
    simp only [scrollLoop] at h
    cases h
  | cons c cs ih =>
    intro index o ys h
    simp only [scrollLoop] at h ⊢
    rcases hstep : scrollStep ra rl index c with ⟨index', es⟩ | ⟨o', es⟩
    · rw [hstep] at h
      show ((scrollLoop ra rl index' (cs ++ ys)).1,
          es ++ (scrollLoop ra rl index' (cs ++ ys)).2) =
        ((scrollLoop ra rl index' cs).1, es ++ (scrollLoop ra rl index' cs).2)
      rw [ih ys h]
    · rfl

/-- Any outcome the loop can finish with, starting inside bounds, is a
cancellation or the selection of one of the dictionary's keys. -/
theorem scrollLoop_finished_inv {ra : ResultDict} {rl : Nat} :
    ∀ {input : List Char} {index : Nat} {o : ScrollOutcome},
      index < ra.length → (scrollLoop ra rl index input).1 = .finished o →
      o = .cancelled ∨ ∃ u ∈ ra.map Prod.fst, o = .selected u := by
  intro input
  induction input with
  | nil =>
    intro index o hlt h
    simp only [scrollLoop] at h
    cases h
  | cons c cs ih =>
    intro index o hlt h
    simp only [scrollLoop] at h
    rcases hstep : scrollStep ra rl index c with ⟨index', es⟩ | ⟨o', es⟩ <;> rw [hstep] at h
    · exact ih (scrollStep_cont_lt hstep hlt) h
    · cases h
      rcases scrollStep_halt_inv hstep with ⟨rfl, -⟩ | ⟨u, rfl, hg, -⟩ | ⟨rfl, hg, -⟩
      · exact Or.inl rfl
      · exact Or.inr ⟨u, List.get?_mem hg, rfl⟩
      · rw [List.get?_eq_none] at hg
        rw [List.length_map] at hg
        omega

/-- The loop finishes exactly when the input reaches a terminal key. -/
theorem scrollLoop_finishes_iff {ra : ResultDict} {rl : Nat} :
    ∀ {input : List Char} {index : Nat},
      (∃ o, (scrollLoop ra rl index input).1 = .finished o) ↔
        ∃ c ∈ input, isTerminalChar c := by
  intro input
  induction input with
  | nil =>
    intro index
    simp [scrollLoop]
  | cons c cs ih =>
    intro index
    constructor
    · rintro ⟨o, h⟩
      simp only [scrollLoop] at h
      rcases hstep : scrollStep ra rl index c with ⟨index', es⟩ | ⟨o', es⟩ <;> rw [hstep] at h
      · obtain ⟨c', hc', ht⟩ := (@ih index').mp ⟨o, h⟩
        exact ⟨c', List.mem_cons_of_mem _ hc', ht⟩
      · exact ⟨c, List.mem_cons_self _ _, (scrollStep_halt_iff ra rl index c).mp ⟨o', es, hstep⟩⟩
    · rintro ⟨c', hc', ht⟩
      simp only [scrollLoop]
      rcases hstep : scrollStep ra rl index c with ⟨index', es⟩ | ⟨o', es⟩
      · rcases List.mem_cons.mp hc' with rfl | hmem
        · obtain ⟨o, es', hh⟩ := (scrollStep_halt_iff ra rl index c').mpr ht
          rw [hstep] at hh
          cases hh
        · obtain ⟨o, h⟩ := (@ih index').mpr ⟨c', hmem, ht⟩
          exact ⟨o, h⟩
      · exact ⟨o', rfl⟩

/-! ## Render-trace lemmas -/

/-- A trace made only of full repaints: no `reprint('')` clear and no
`moveup` cursor restore. -/
def navOnly (es : List RenderEvent) : Prop :=
  ∀ e ∈ es, ∃ i, e = RenderEvent.reprint i

theorem navOnly_append {es es' : List RenderEvent}
    (h : navOnly es) (h' : navOnly es') : navOnly (es ++ es') := by
  intro e he
  rcases List.mem_append.mp he with he | he
  · exact h e he
  · exact h' e he

theorem scrollStep_cont_navOnly {ra : ResultDict} {rl index : Nat} {c : Char}
    {index' : Nat} {es : List RenderEvent}
    (h : scrollStep ra rl index c = .cont index' es) : navOnly es := by
  rcases scrollStep_cont_events h with rfl | ⟨m, rfl⟩
  · intro e he; cases he
  · intro e he
    rcases List.mem_singleton.mp he with rfl
    exact ⟨m, rfl⟩

theorem scrollLoop_trace_outOfInput {ra : ResultDict} {rl : Nat} :
    ∀ {input : List Char} {index i' : Nat},
      (scrollLoop ra rl index input).1 = .outOfInput i' →
      navOnly (scrollLoop ra rl index input).2 := by
  intro input
  induction input with
  | nil =>
    intro index i' h
    intro e he
    cases he
  | cons c cs ih =>
    intro index i' h
    simp only [scrollLoop] at h ⊢
    rcases hstep : scrollStep ra rl index c with ⟨index', es⟩ | ⟨o, es⟩ <;> rw [hstep] at h
    · exact navOnly_append (scrollStep_cont_navOnly hstep) (ih h)
    · cases h

theorem scrollLoop_trace_cancelled {ra : ResultDict} {rl : Nat} :
    ∀ {input : List Char} {index : Nat},
      (scrollLoop ra rl index input).1 = .finished .cancelled →
      navOnly (scrollLoop ra rl index input).2 := by
  intro input
  induction input with
  | nil =>
    intro index h
    simp only [scrollLoop] at h
    cases h
  | cons c cs ih =>
    intro index h
    simp only [scrollLoop] at h ⊢
    rcases hstep : scrollStep ra rl index c with ⟨index', es⟩ | ⟨o, es⟩ <;> rw [hstep] at h
    · exact navOnly_append (scrollStep_cont_navOnly hstep) (ih h)
    · cases h
      rcases scrollStep_halt_inv hstep with ⟨-, rfl⟩ | ⟨u, hu, -, -⟩ | ⟨hc, -, -⟩
      · intro e he; cases he
      · cases hu
      · cases hc

theorem scrollLoop_trace_selected {ra : ResultDict} {rl : Nat} :
    ∀ {input : List Char} {index : Nat} {u : String},
      (scrollLoop ra rl index input).1 = .finished (.selected u) →
      ∃ es', (scrollLoop ra rl index input).2 =
          es' ++ [RenderEvent.reprintBlank, RenderEvent.moveup (rl + 10)] ∧
        navOnly es' := by
  intro input
  induction input with
  | nil =>
    intro index u h
    simp only [scrollLoop] at h
    cases h
  | cons c cs ih =>
    intro index u h
    simp only [scrollLoop] at h ⊢
    rcases hstep : scrollStep ra rl index c with ⟨index', es⟩ | ⟨o, es⟩ <;> rw [hstep] at h
    · obtain ⟨es', heq, hnav⟩ := ih h
      refine ⟨es ++ es', ?_, navOnly_append (scrollStep_cont_navOnly hstep) hnav⟩
      show es ++ (scrollLoop ra rl index' cs).2 = _
      rw [heq, List.append_assoc]
    · cases h
      rcases scrollStep_halt_inv hstep with ⟨hc, -⟩ | ⟨u', hu, -, rfl⟩ | ⟨hc, -, -⟩
      · cases hc
      · exact ⟨[], rfl, fun e he => absurd he (List.not_mem_nil e)⟩
      · cases hc

/-! ## Key-order analysis of the built dictionary -/

/-- Key order after a whole run of `OrderedDict` assignments. -/
def keysFold (ks : List String) (us : List String) : List String :=
  us.foldl keysInsert ks

/-- The subsequence of `us` made of first occurrences of keys not
already in `ks`: the order `OrderedDict` insertion produces. -/
def firstNew (ks : List String) : List String → List String
  | [] => []
  | u :: us => if u ∈ ks then firstNew ks us else u :: firstNew (ks ++ [u]) us

theorem buildFold_keys {kind : Kind} :
    ∀ {items : List RawItem} {d r : ResultDict},
      buildFold kind items d = some r →
      r.map Prod.fst = keysFold (d.map Prod.fst) (items.map RawItem.uri) := by
  intro items
  induction items with
  | nil =>
    intro d r h
    simp only [buildFold] at h
    cases h
    rfl
  | cons item rest ih =>
    intro d r h
    simp only [buildFold] at h
    rcases hx : extractFields kind item with _ | v <;> rw [hx] at h
    · cases h
    · have := ih h
      rw [this, odInsert_keys]
      rfl

theorem keysFold_eq_append_firstNew :
    ∀ (us ks : List String), keysFold ks us = ks ++ firstNew ks us := by
  intro us
  induction us with
  | nil => intro ks; simp [keysFold, firstNew]
  | cons u us ih =>
    intro ks
    show keysFold (keysInsert ks u) us = ks ++ firstNew ks (u :: us)
    unfold keysInsert firstNew
    by_cases hu : u ∈ ks
    · rw [if_pos hu, if_pos hu, ih]
    · rw [if_neg hu, if_neg hu, ih]
      simp

theorem mem_firstNew :
    ∀ {us ks : List String} {u : String},
      u ∈ firstNew ks us → u ∈ us ∧ u ∉ ks := by
  intro us
  induction us with
  | nil =>
    intro ks u h
    cases h
  | cons u0 us ih =>
    intro ks u h
    unfold firstNew at h
    by_cases h0 : u0 ∈ ks
    · rw [if_pos h0] at h
      obtain ⟨h1, h2⟩ := ih h
      exact ⟨List.mem_cons_of_mem _ h1, h2⟩
    · rw [if_neg h0] at h
      rcases List.mem_cons.mp h with rfl | h
      · exact ⟨List.mem_cons_self _ _, h0⟩
      · obtain ⟨h1, h2⟩ := ih h
        refine ⟨List.mem_cons_of_mem _ h1, fun hk => h2 ?_⟩
        exact List.mem_append.mpr (Or.inl hk)

theorem firstNew_nodup : ∀ (us ks : List String), (firstNew ks us).Nodup := by
  intro us
  induction us with
  | nil => intro ks; exact List.nodup_nil
  | cons u us ih =>
    intro ks
    unfold firstNew
    by_cases hu : u ∈ ks
    · rw [if_pos hu]
      exact ih ks
    · rw [if_neg hu]
      refine List.nodup_cons.mpr ⟨fun hm => ?_, ih (ks ++ [u])⟩
      exact (mem_firstNew hm).2 (List.mem_append.mpr (Or.inr (List.mem_singleton.mpr rfl)))

theorem firstNew_length_le :
    ∀ (us ks : List String), (firstNew ks us).length ≤ us.length := by
  intro us
  induction us with
  | nil => intro ks; exact Nat.le_refl 0
  | cons u us ih =>
    intro ks
    unfold firstNew
    by_cases hu : u ∈ ks
    · rw [if_pos hu]
      exact Nat.le_succ_of_le (ih ks)
    · rw [if_neg hu]
      simpa using Nat.succ_le_succ (ih (ks ++ [u]))

theorem firstNew_length_lt_of_mem :
    ∀ (us ks : List String) (u : String), u ∈ us → u ∈ ks →
      (firstNew ks us).length < us.length := by
  intro us
  induction us with
  | nil =>
    intro ks u h
    cases h
  | cons u0 us ih =>
    intro ks u hu hks
    unfold firstNew
    by_cases h0 : u0 ∈ ks
    · rw [if_pos h0]
      exact Nat.lt_succ_of_le (firstNew_length_le us ks)
    · rw [if_neg h0]
      rcases List.mem_cons.mp hu with rfl | hu
      · exact absurd hks h0
      · have := ih (ks ++ [u0]) u hu (List.mem_append.mpr (Or.inl hks))
        simpa using Nat.succ_lt_succ this

theorem firstNew_length_lt_of_dup :
    ∀ (us ks : List String), ¬us.Nodup → (firstNew ks us).length < us.length := by
  intro us
  induction us with
  | nil =>
    intro ks h
    exact absurd List.nodup_nil h
  | cons u us ih =>
    intro ks h
    rw [List.nodup_cons] at h
    push_neg at h
    unfold firstNew
    by_cases hu : u ∈ ks
    · rw [if_pos hu]
      exact Nat.lt_succ_of_le (firstNew_length_le us ks)
    · rw [if_neg hu]
      by_cases hmem : u ∈ us
      · have := firstNew_length_lt_of_mem us (ks ++ [u]) u hmem
          (List.mem_append.mpr (Or.inr (List.mem_singleton.mpr rfl)))
        simpa using Nat.succ_lt_succ this
      · have := ih (ks ++ [u]) (h hmem)
        simpa using Nat.succ_lt_succ this

theorem firstNew_of_nodup_fresh :
    ∀ (us ks : List String), us.Nodup → (∀ u ∈ us, u ∉ ks) →
      firstNew ks us = us := by
  intro us
  induction us with
  | nil => intro ks _ _; rfl
  | cons u us ih =>
    intro ks hnd hfresh
    rw [List.nodup_cons] at hnd
    unfold firstNew
    rw [if_neg (hfresh u (List.mem_cons_self _ _))]
    congr 1
    refine ih (ks ++ [u]) hnd.2 fun u' hu' hk => ?_
    rcases List.mem_append.mp hk with hk | hk
    · exact hfresh u' (List.mem_cons_of_mem _ hu') hk
    · exact hnd.1 (List.mem_singleton.mp hk ▸ hu')

/-! ## Value analysis of the built dictionary -/

/-- `d[k]`: the display fields stored under key `k`. -/
def lookupVal : ResultDict → String → Option (List String)
  | [], _ => none
  | (a, b) :: rest, k => if a = k then some b else lookupVal rest k

/-- The last record of `items` carrying identifier `k`, if any. -/
def lastMatch (items : List RawItem) (k : String) : Option RawItem :=
  items.reverse.find? (fun it => it.uri = k)

theorem lookupVal_odInsert (k' k : String) (v : List String) :
    ∀ (d : ResultDict), lookupVal (odInsert d k v) k' =
      if k' = k then some v else lookupVal d k' := by
  intro d
  induction d with
  | nil =>
    simp only [odInsert, lookupVal]
    by_cases h : k' = k
    · rw [if_pos h.symm, if_pos h]
    · rw [if_neg (fun hh => h hh.symm), if_neg h]
  | cons p rest ih =>
    obtain ⟨a, b⟩ := p
    simp only [odInsert]
    by_cases hak : a = k
    · subst hak
      rw [if_pos rfl]
      simp only [lookupVal]
      by_cases h : k' = a
      · rw [if_pos h.symm, if_pos h]
      · rw [if_neg (fun hh => h hh.symm), if_neg h,
          if_neg (fun hh => h hh.symm)]
    · rw [if_neg hak]
      simp only [lookupVal, ih]
      by_cases hak' : a = k'
      · rw [if_pos hak', if_neg (fun hh : k' = k => hak (hak'.trans hh)),
          if_pos hak']
      · rw [if_neg hak']
        by_cases h : k' = k
        · rw [if_pos h, if_pos h]
        · rw [if_neg h, if_neg h, if_neg hak']

theorem buildFold_lookup {kind : Kind} :
    ∀ {items : List RawItem} {d r : ResultDict},
      buildFold kind items d = some r → ∀ k : String,
        lookupVal r k =
          match lastMatch items k with
          | some it => extractFields kind it
          | none => lookupVal d k := by
  intro items
  induction items with
  | nil =>
    intro d r h k
    simp only [buildFold] at h
    cases h
    rfl
  | cons it rest ih =>
    intro d r h k
    simp only [buildFold] at h
    rcases hx : extractFields kind it with _ | v <;> rw [hx] at h
    · cases h
    · have hrec := ih h k
      have happ : lastMatch (it :: rest) k =
          match lastMatch rest k with
          | some it' => some it'
          | none => [it].find? (fun x => x.uri = k) := by
        unfold lastMatch
        rw [List.reverse_cons, List.find?_append]
        rcases hfind : rest.reverse.find? (fun x => decide (x.uri = k)) with _ | it' <;>
          rw [hfind] <;> rfl
      rw [hrec, happ]
      rcases hfind : lastMatch rest k with _ | it'
      · rw [lookupVal_odInsert]
        by_cases hk : it.uri = k
        · rw [if_pos hk.symm]
          have : [it].find? (fun x => x.uri = k) = some it := by
            simp [List.find?, hk]
          rw [this, ← hk] at *
          simp [hx]
        · rw [if_neg (fun hh => hk hh.symm)]
          have : [it].find? (fun x => x.uri = k) = none := by
            simp [List.find?, hk]
          rw [this]
      · rfl

/-- Every value stored in the built dictionary is a successful field
projection of some input item. -/
theorem buildFold_values {kind : Kind} (P : List String → Prop) :
    ∀ {items : List RawItem} {d r : ResultDict},
      buildFold kind items d = some r →
      (∀ it ∈ items, ∀ v, extractFields kind it = some v → P v) →
      (∀ p ∈ d, P p.2) → ∀ p ∈ r, P p.2 := by
  intro items
  induction items with
  | nil =>
    intro d r h _ hd
    simp only [buildFold] at h
    cases h
    exact hd
  | cons it rest ih =>
    intro d r h hitems hd
    simp only [buildFold] at h
    rcases hx : extractFields kind it with _ | v <;> rw [hx] at h
    · cases h
    · refine ih h (fun it' hit' => hitems it' (List.mem_cons_of_mem _ hit')) ?_
      intro p hp
      rcases odInsert_mem hp with hp | rfl
      · exact hd p hp
      · exact hitems it (List.mem_cons_self _ _) v hx

/-! ## Destructuring the result of `get_search_result_dict` -/

theorem get_ok_some_iff {kind : Kind} {items : List RawItem} {d : ResultDict} :
    get_search_result_dict kind items = .ok (some d) ↔
      items ≠ [] ∧ buildFold kind items [] = some d := by
  unfold get_search_result_dict
  by_cases hemp : items.isEmpty
  · rw [if_pos hemp]
    simp [List.isEmpty_iff.mp hemp]
  · rw [if_neg hemp]
    have hni : items ≠ [] := fun h => hemp (by simp [h])
    rcases hb : buildFold kind items [] with _ | d'
    · simp [hni, hb]
    · simp [hni, hb]

/-- A dictionary the code actually returns is never the empty one: the
source builds it from at least one item. -/
theorem get_ok_some_ne_nil {kind : Kind} {items : List RawItem} {d : ResultDict}
    (h : get_search_result_dict kind items = .ok (some d)) : d ≠ [] := by
  obtain ⟨hni, hb⟩ := get_ok_some_iff.mp h
  have hkeys := buildFold_keys hb
  rcases items with _ | ⟨it, rest⟩
  · exact absurd rfl hni
  · intro hd
    rw [hd, keysFold_eq_append_firstNew] at hkeys
    simp only [List.map_nil, List.map_cons, List.nil_append] at hkeys
    unfold firstNew at hkeys
    rw [if_neg (List.not_mem_nil _)] at hkeys
    cases hkeys

/-! ## The claims -/

/-- C1: as stated over every non-empty raw-item list the round-trip
fails: with two records sharing one identifier the built model has a
single entry, so position `1` of the model carries no identifier at
all, while `rawItems[1].identifier` exists. -/
theorem spo_C1_counterexample :
    get_search_result_dict Kind.artist
        [⟨"spotify:artist:1", "x", [], ""⟩, ⟨"spotify:artist:1", "y", [], ""⟩] =
      .ok (some [("spotify:artist:1", ["y"])]) ∧
    1 < [RawItem.mk "spotify:artist:1" "x" [] "",
        RawItem.mk "spotify:artist:1" "y" [] ""].length ∧
    (([("spotify:artist:1", ["y"])] : ResultDict).map Prod.fst).get? 1 = none :=
  ⟨rfl, by decide, rfl⟩

/-- When every inserted key is fresh (the input identifiers are
pairwise distinct and absent from the accumulator), the build is a
plain append: position `n` of the result carries exactly the `n`-th
input item's identifier paired with its kind projection. -/
theorem buildFold_fresh_get {kind : Kind} :
    ∀ {items : List RawItem} {d r : ResultDict},
      buildFold kind items d = some r →
      (items.map RawItem.uri).Nodup →
      (∀ it ∈ items, it.uri ∉ d.map Prod.fst) →
      ∀ n : Nat, r.get? n =
        if n < d.length then d.get? n
        else (items.get? (n - d.length)).bind
          (fun it => (extractFields kind it).map (fun v => (it.uri, v))) := by
  intro items
  induction items with
  | nil =>
    intro d r h hnd hfresh n
    simp only [buildFold] at h
    cases h
    by_cases hn : n < d.length
    · rw [if_pos hn]
    · rw [if_neg hn, List.get?_eq_none.mpr (by omega)]
      simp
  | cons it rest ih =>
    intro d r h hnd hfresh n
    simp only [buildFold] at h
    rcases hx : extractFields kind it with _ | v <;> rw [hx] at h
    · cases h
    · have huri : it.uri ∉ d.map Prod.fst := hfresh it (List.mem_cons_self _ _)
      have h' : buildFold kind rest (odInsert d it.uri v) = some r := h
      rw [odInsert_fresh d it.uri v huri] at h'
      simp only [List.map_cons, List.nodup_cons] at hnd
      have hfresh' : ∀ it' ∈ rest, it'.uri ∉ (d ++ [(it.uri, v)]).map Prod.fst := by
        intro it' hit' hmem
        rw [List.map_append] at hmem
        rcases List.mem_append.mp hmem with hmem | hmem
        · exact hfresh it' (List.mem_cons_of_mem _ hit') hmem
        · simp only [List.map_cons, List.map_nil, List.mem_singleton] at hmem
          exact hnd.1 (hmem ▸ List.mem_map_of_mem RawItem.uri hit')
      have hrec := ih h' hnd.2 hfresh' n
      rw [show (d ++ [(it.uri, v)]).length = d.length + 1 from by simp] at hrec
      rw [hrec]
      by_cases hn : n < d.length
      · rw [if_pos (by omega), if_pos hn, List.get?_append hn]
      · by_cases hn' : n = d.length
        · subst hn'
          rw [if_pos (by omega), if_neg (by omega), List.get?_concat_length,
            Nat.sub_self]
          simp [hx]
        · rw [if_neg (by omega), if_neg hn]
          obtain ⟨m, hm⟩ : ∃ m, n - d.length = m + 1 := ⟨n - d.length - 1, by omega⟩
          rw [hm, show n - (d.length + 1) = m from by omega]
          rfl

/-- C1 (amended): for raw-item lists with pairwise-distinct identifiers,
whenever `get_search_result_dict` returns a model its key sequence is
exactly the input identifier sequence (hence `identifierAt(i) ==
rawItems[i].identifier` at every valid index), the entry at each
position `i` is precisely `rawItems[i]`'s identifier paired with the
kind projection of `rawItems[i]` (track → name, first artist name,
album name; artist → name; album → name, first artist name), and so
each entry carries the kind-fixed arity 3/1/2. -/
theorem spo_C1_roundtrip {kind : Kind} {items : List RawItem} {d : ResultDict}
    (hnd : (items.map RawItem.uri).Nodup)
    (hok : get_search_result_dict kind items = .ok (some d)) :
    d.map Prod.fst = items.map RawItem.uri ∧
    (∀ i : Nat, d.get? i =
      (items.get? i).bind
        (fun it => (extractFields kind it).map (fun v => (it.uri, v)))) ∧
    ∀ p ∈ d, p.2.length = kindArity kind := by
  obtain ⟨hni, hb⟩ := get_ok_some_iff.mp hok
  refine ⟨?_, ?_, ?_⟩
  · rw [buildFold_keys hb, keysFold_eq_append_firstNew]
    simp only [List.map_nil, List.nil_append]
    exact firstNew_of_nodup_fresh _ [] hnd fun u _ hu => List.not_mem_nil u hu
  · intro i
    have hi := buildFold_fresh_get hb hnd
      (fun it _ hmem => List.not_mem_nil it.uri hmem) i
    simpa using hi
  · exact buildFold_values (fun v => v.length = kindArity kind) hb
      (fun it _ v hv => extractFields_length hv) (fun p hp => absurd hp (List.not_mem_nil p))

theorem spo_C1_roundtrip_witness :
    (([("uA", ["na", "arA", "alA"])] : ResultDict).map Prod.fst =
      [RawItem.mk "uA" "na" ["arA"] "alA"].map RawItem.uri) ∧
    (∀ i : Nat, ([("uA", ["na", "arA", "alA"])] : ResultDict).get? i =
      ([RawItem.mk "uA" "na" ["arA"] "alA"].get? i).bind
        (fun it => (extractFields Kind.track it).map (fun v => (it.uri, v)))) ∧
    ∀ p ∈ ([("uA", ["na", "arA", "alA"])] : ResultDict),
      p.2.length = kindArity Kind.track :=
  spo_C1_roundtrip (by decide) rfl

/-- C10: when the raw items contain a repeated identifier, the built
model is strictly shorter than the input; its key sequence is the
first-occurrence order of the input identifiers, each key's display
fields are those extracted from the last input record carrying that
identifier, and the keys are duplicate-free. -/
theorem spo_C10_duplicate_collapse {kind : Kind} {items : List RawItem}
    {d : ResultDict}
    (hdup : ¬(items.map RawItem.uri).Nodup)
    (hok : get_search_result_dict kind items = .ok (some d)) :
    d.length < items.length ∧
    d.map Prod.fst = firstNew [] (items.map RawItem.uri) ∧
    (∀ k, lookupVal d k =
      match lastMatch items k with
      | some it => extractFields kind it
      | none => none) ∧
    (d.map Prod.fst).Nodup := by
  obtain ⟨hni, hb⟩ := get_ok_some_iff.mp hok
  have hkeys : d.map Prod.fst = firstNew [] (items.map RawItem.uri) := by
    rw [buildFold_keys hb, keysFold_eq_append_firstNew]
    simp
  refine ⟨?_, hkeys, ?_, ?_⟩
  · have hlt := firstNew_length_lt_of_dup (items.map RawItem.uri) [] hdup
    rw [← hkeys, List.length_map] at hlt
    rw [List.length_map] at hlt
    exact hlt
  · intro k
    have := buildFold_lookup hb k
    rw [this]
    rcases lastMatch items k with _ | it
    · rfl
    · rfl
  · rw [hkeys]
    exact firstNew_nodup _ _

theorem spo_C10_witness :
    ([("spotify:track:1", ["y", "ar2", "al2"])] : ResultDict).length <
      [RawItem.mk "spotify:track:1" "x" ["ar1"] "al1",
        RawItem.mk "spotify:track:1" "y" ["ar2"] "al2"].length ∧
    lookupVal [("spotify:track:1", ["y", "ar2", "al2"])] "spotify:track:1" =
      (match lastMatch [RawItem.mk "spotify:track:1" "x" ["ar1"] "al1",
          RawItem.mk "spotify:track:1" "y" ["ar2"] "al2"] "spotify:track:1" with
        | some it => extractFields Kind.track it
        | none => none) :=
  ⟨(@spo_C10_duplicate_collapse Kind.track
      [RawItem.mk "spotify:track:1" "x" ["ar1"] "al1",
        RawItem.mk "spotify:track:1" "y" ["ar2"] "al2"]
      [("spotify:track:1", ["y", "ar2", "al2"])] (by decide) rfl).1,
    (@spo_C10_duplicate_collapse Kind.track
      [RawItem.mk "spotify:track:1" "x" ["ar1"] "al1",
        RawItem.mk "spotify:track:1" "y" ["ar2"] "al2"]
      [("spotify:track:1", ["y", "ar2", "al2"])] (by decide) rfl).2.2.1
      "spotify:track:1"⟩

/-- Pressing `'j'` `m` times while room remains moves the cursor down
`m` entries. -/
theorem scrollLoop_replicate_j {ra : ResultDict} {rl : Nat} :
    ∀ {m index : Nat}, index + m ≤ ra.length - 1 →
      (scrollLoop ra rl index (List.replicate m 'j')).1 =
        .outOfInput (index + m) := by
  intro m
  induction m with
  | zero =>
    intro index h
    rfl
  | succ m ih =>
    intro index h
    rw [List.replicate_succ]
    have hstep : scrollStep ra rl index 'j' =
        .cont (index + 1) [.reprint (index + 1)] := by
      rw [scrollStep_j, if_pos (by omega)]
    simp only [scrollLoop, hstep]
    show (scrollLoop ra rl (index + 1) (List.replicate m 'j')).1 = _
    rw [ih (by omega)]
    congr 1
    omega

/-- C2: from any reachable cursor position `i`, a carriage return makes
the picker return the identifier at position `i` of the model. -/
theorem spo_C2_confirm_returns_cursor {ra : ResultDict} {rl : Nat}
    {input : List Char} {i : Nat}
    (hne : ra ≠ [])
    (hreach : (let_user_scroll ra rl input).1 = .outOfInput i) :
    (let_user_scroll ra rl (input ++ ['\x0D'])).1 =
      .finished (.selected ((ra.map Prod.fst).getD i "")) := by
  have hreach' : (scrollLoop ra rl 0 input).1 = .outOfInput i := hreach
  have hi : i < ra.length :=
    scrollLoop_outOfInput_lt (List.length_pos.mpr hne) hreach'
  have hlen : i < (ra.map Prod.fst).length := by
    rw [List.length_map]
    exact hi
  rcases hx : (ra.map Prod.fst).get? i with _ | u
  · rw [List.get?_eq_none] at hx
    omega
  · have hgetD : (ra.map Prod.fst).getD i "" = u := by
      rw [List.getD_eq_get?, hx]
      rfl
    show (scrollLoop ra rl 0 (input ++ ['\x0D'])).1 = _
    rw [scrollLoop_append_outOfInput ['\x0D'] hreach']
    show (scrollLoop ra rl i ['\x0D']).1 = _
    rw [hgetD]
    have hstep : scrollStep ra rl i '\x0D' =
        .halt (.selected u) [.reprintBlank, .moveup (rl + 10)] := by
      rw [scrollStep_cr, hx]
    simp only [scrollLoop, hstep]

theorem spo_C2_witness :
    (let_user_scroll [("uriA", ["na"])] 1 (([] : List Char) ++ ['\x0D'])).1 =
      .finished (.selected (([("uriA", ["na"])].map Prod.fst).getD 0 "")) :=
  spo_C2_confirm_returns_cursor (by decide) rfl

/-- C3: the cursor stays inside `[0, size)` after any keystroke
sequence, and `size` presses of the down key from the start leave it
at `size - 1`. -/
theorem spo_C3_cursor_bounds {ra : ResultDict} {rl : Nat} (hne : ra ≠ []) :
    (∀ (input : List Char) (i : Nat),
      (let_user_scroll ra rl input).1 = .outOfInput i → i < ra.length) ∧
    (let_user_scroll ra rl (List.replicate ra.length 'j')).1 =
      .outOfInput (ra.length - 1) := by
  have hpos : 0 < ra.length := List.length_pos.mpr hne
  constructor
  · intro input i h
    exact scrollLoop_outOfInput_lt hpos h
  · obtain ⟨n, hn⟩ : ∃ n, ra.length = n + 1 := ⟨ra.length - 1, by omega⟩
    show (scrollLoop ra rl 0 (List.replicate ra.length 'j')).1 = _
    rw [hn, List.replicate_succ']
    have hrep : (scrollLoop ra rl 0 (List.replicate n 'j')).1 = .outOfInput n := by
      have h0 := @scrollLoop_replicate_j ra rl n 0 (by omega)
      rwa [Nat.zero_add] at h0
    rw [scrollLoop_append_outOfInput ['j'] hrep]
    show (scrollLoop ra rl n ['j']).1 = _
    have hstep : scrollStep ra rl n 'j' = .cont n [] := by
      rw [scrollStep_j, if_neg (by omega)]
    simp only [scrollLoop, hstep]
    rfl

theorem spo_C3_witness :
    (1 : Nat) < 2 ∧
    (let_user_scroll [("uA", ["a"]), ("uB", ["b"])] 2
        (List.replicate 2 'j')).1 = .outOfInput 1 :=
  ⟨(@spo_C3_cursor_bounds [("uA", ["a"]), ("uB", ["b"])] 2 (by decide)).1 ['j'] 1 rfl,
    (@spo_C3_cursor_bounds [("uA", ["a"]), ("uB", ["b"])] 2 (by decide)).2⟩

/-- C4: the down key at the last entry and the up key at the first
entry change nothing at all: same cursor, no render output, no
termination, no wrap-around. -/
theorem spo_C4_boundary_noop {ra : ResultDict} {rl : Nat} (hne : ra ≠ [])
    (cs : List Char) :
    scrollLoop ra rl (ra.length - 1) ('j' :: cs) =
      scrollLoop ra rl (ra.length - 1) cs ∧
    scrollLoop ra rl 0 ('k' :: cs) = scrollLoop ra rl 0 cs := by
  constructor
  · have hstep : scrollStep ra rl (ra.length - 1) 'j' =
        .cont (ra.length - 1) [] := by
      rw [scrollStep_j, if_neg (by omega)]
    simp [scrollLoop, hstep]
  · have hstep : scrollStep ra rl 0 'k' = .cont 0 [] := by
      rw [scrollStep_k, if_neg (by omega)]
    simp [scrollLoop, hstep]

theorem spo_C4_witness :
    scrollLoop [("uA", ["a"])] 1 0 ['j'] = scrollLoop [("uA", ["a"])] 1 0 [] ∧
    scrollLoop [("uA", ["a"])] 1 0 ['k'] = scrollLoop [("uA", ["a"])] 1 0 [] :=
  spo_C4_boundary_noop (by decide) []

/-- C5: from any reachable state, `'q'` or escape makes the picker
return `None`, and the `search` branch of `main` then issues no
`OpenUri` command. -/
theorem spo_C5_cancel_yields_none {ra : ResultDict} {input : List Char}
    {i : Nat} {c : Char}
    (hreach : (let_user_scroll ra ra.length input).1 = .outOfInput i)
    (hc : c = 'q' ∨ c = '\x1B') :
    (let_user_scroll ra ra.length (input ++ [c])).1 = .finished .cancelled ∧
    ∀ items : List RawItem,
      get_search_result_dict Kind.track items = .ok (some ra) →
      main_search items (input ++ [c]) = .completed (some ra) [] := by
  have hreach' : (scrollLoop ra ra.length 0 input).1 = .outOfInput i := hreach
  have hcancel : (scrollLoop ra ra.length 0 (input ++ [c])).1 =
      .finished .cancelled := by
    rw [scrollLoop_append_outOfInput [c] hreach']
    show (scrollLoop ra ra.length i [c]).1 = _
    have hstep : scrollStep ra ra.length i c = .halt .cancelled [] := by
      rcases hc with rfl | rfl
      · exact scrollStep_q ra ra.length i
      · exact scrollStep_esc ra ra.length i
    simp only [scrollLoop, hstep]
  refine ⟨hcancel, ?_⟩
  intro items hitems
  have hne : ra ≠ [] := get_ok_some_ne_nil hitems
  simp only [main_search, hitems]
  rw [if_neg (fun h => hne (List.isEmpty_iff.mp h))]
  rw [show (let_user_scroll ra ra.length (input ++ [c])).1 =
    .finished .cancelled from hcancel]

theorem spo_C5_witness :
    (let_user_scroll [("uriT", ["t", "ar", "al"])] 1
        (([] : List Char) ++ ['q'])).1 = .finished .cancelled ∧
    main_search [RawItem.mk "uriT" "t" ["ar"] "al"] (([] : List Char) ++ ['q']) =
      .completed (some [("uriT", ["t", "ar", "al"])]) [] :=
  ⟨(@spo_C5_cancel_yields_none [("uriT", ["t", "ar", "al"])] [] 0 'q'
      rfl (Or.inl rfl)).1,
    (@spo_C5_cancel_yields_none [("uriT", ["t", "ar", "al"])] [] 0 'q'
      rfl (Or.inl rfl)).2 [RawItem.mk "uriT" "t" ["ar"] "al"] rfl⟩

/-- C6: `get_search_result_dict` returns `None` exactly on an empty
item list; the caller then prints the no-results message without
invoking the picker, and any model the picker is invoked with is
non-empty. -/
theorem spo_C6_empty_results (kind : Kind) (items : List RawItem) :
    (get_search_result_dict kind items = .ok none ↔ items = []) ∧
    (get_search_result_dict Kind.track items = .ok none →
      ∀ input : List Char,
        main_search items input = .completed none [Effect.printNoResults]) ∧
    (∀ d : ResultDict, picker_called items = some d → d ≠ []) := by
  refine ⟨?_, ?_, ?_⟩
  · unfold get_search_result_dict
    by_cases hemp : items.isEmpty
    · rw [if_pos hemp]
      simp [List.isEmpty_iff.mp hemp]
    · rw [if_neg hemp]
      have hni : items ≠ [] := fun h => hemp (by simp [h])
      rcases hb : buildFold kind items [] with _ | d'
      · simp [hni, hb]
      · simp [hni, hb]
  · intro hnone input
    simp only [main_search, hnone]
  · intro d hd
    rcases hg : get_search_result_dict Kind.track items with e | r
    · simp only [picker_called, hg] at hd
      cases hd
    · rcases r with _ | d'
      · simp only [picker_called, hg] at hd
        cases hd
      · simp only [picker_called, hg] at hd
        by_cases hempd : d'.isEmpty
        · rw [if_pos hempd] at hd
          cases hd
        · rw [if_neg hempd] at hd
          injection hd with hd
          subst hd
          exact fun h => hempd (by simp [h])

theorem spo_C6_witness :
    get_search_result_dict Kind.artist [] = .ok none ∧
    main_search [] ['q'] = .completed none [Effect.printNoResults] :=
  ⟨(spo_C6_empty_results Kind.artist []).1.mpr rfl,
    (spo_C6_empty_results Kind.track []).2.1 rfl ['q']⟩

/-- C7: the picker loop returns exactly when the input reaches a
carriage return, `'q'` or escape, and the only values it can return
are `None` or an identifier from the model. -/
theorem spo_C7_termination {ra : ResultDict} {rl : Nat} (hne : ra ≠ [])
    (input : List Char) :
    ((∃ o, (let_user_scroll ra rl input).1 = .finished o) ↔
      ∃ c ∈ input, isTerminalChar c) ∧
    (∀ o, (let_user_scroll ra rl input).1 = .finished o →
      o = .cancelled ∨ ∃ u ∈ ra.map Prod.fst, o = .selected u) := by
  constructor
  · exact scrollLoop_finishes_iff
  · intro o h
    exact scrollLoop_finished_inv (List.length_pos.mpr hne) h

theorem spo_C7_witness :
    ((∃ o, (let_user_scroll [("uA", ["a"])] 1 ['q']).1 = .finished o) ↔
      ∃ c ∈ ['q'], isTerminalChar c) ∧
    (∀ o, (let_user_scroll [("uA", ["a"])] 1 ['q']).1 = .finished o →
      o = .cancelled ∨ ∃ u ∈ [("uA", ["a"])].map Prod.fst, o = .selected u) :=
  spo_C7_termination (by decide) ['q']

/-- C8: a keystroke that is none of `'j'`, `'k'`, carriage return,
`'q'` and escape leaves the whole run unchanged: same cursor, no
output, no termination. -/
theorem spo_C8_inert_keys {ra : ResultDict} {rl index : Nat} {c : Char}
    (h1 : c ≠ 'j') (h2 : c ≠ 'k') (h3 : c ≠ '\x0D') (h4 : c ≠ 'q')
    (h5 : c ≠ '\x1B') (cs : List Char) :
    scrollLoop ra rl index (c :: cs) = scrollLoop ra rl index cs := by
  simp [scrollLoop, scrollStep_other ra rl index h1 h2 h3 h4 h5]

theorem spo_C8_witness :
    scrollLoop [("uA", ["a"])] 1 0 ['x'] = scrollLoop [("uA", ["a"])] 1 0 [] :=
  spo_C8_inert_keys (by decide) (by decide) (by decide) (by decide) (by decide) []

/-- C9: on the selection path the trace ends with the blank reprint and
the `moveup(size + 10)` restore; on the cancellation path the trace
holds no clear or restore output at all; and these two are the only
exit paths. -/
theorem spo_C9_exit_asymmetry {ra : ResultDict} {input : List Char}
    (hne : ra ≠ []) :
    (∀ u, (let_user_scroll ra ra.length input).1 = .finished (.selected u) →
      ∃ es, (let_user_scroll ra ra.length input).2 =
          es ++ [RenderEvent.reprintBlank, RenderEvent.moveup (ra.length + 10)] ∧
        navOnly es) ∧
    ((let_user_scroll ra ra.length input).1 = .finished .cancelled →
      navOnly (let_user_scroll ra ra.length input).2) ∧
    (∀ o, (let_user_scroll ra ra.length input).1 = .finished o →
      o = .cancelled ∨ ∃ u, o = .selected u) := by
  refine ⟨?_, ?_, ?_⟩
  · intro u h
    obtain ⟨es', heq, hnav⟩ := scrollLoop_trace_selected
      (show (scrollLoop ra ra.length 0 input).1 = .finished (.selected u) from h)
    refine ⟨RenderEvent.reprint 0 :: es', ?_, ?_⟩
    · show RenderEvent.reprint 0 :: (scrollLoop ra ra.length 0 input).2 = _
      rw [heq]
      rfl
    · intro e he
      rcases List.mem_cons.mp he with rfl | he
      · exact ⟨0, rfl⟩
      · exact hnav e he
  · intro h
    have hnav := scrollLoop_trace_cancelled
      (show (scrollLoop ra ra.length 0 input).1 = .finished .cancelled from h)
    intro e he
    rcases List.mem_cons.mp he with rfl | he
    · exact ⟨0, rfl⟩
    · exact hnav e he
  · intro o h
    rcases scrollLoop_finished_inv (List.length_pos.mpr hne) h with h' | ⟨u, -, h'⟩
    · exact Or.inl h'
    · exact Or.inr ⟨u, h'⟩

theorem spo_C9_witness :
    ∃ es, (let_user_scroll [("uA", ["a"])] 1 ['\x0D']).2 =
        es ++ [RenderEvent.reprintBlank, RenderEvent.moveup (1 + 10)] ∧
      navOnly es :=
  (@spo_C9_exit_asymmetry [("uA", ["a"])] ['\x0D'] (by decide)).1 "uA" rfl

end Spo
